import Mathlib

/-!
Verification of the Rust minimap renderer and PNG IDAT assembler from
`py_rme_canary_rust/src/lib.rs` (a pyo3 extension crate).

The two functions under study are `render_minimap_buffer` and
`assemble_png_idat`.  They are embedded shallowly:

* `u8` values are `Nat` (they are only stored and compared, never used in
  arithmetic);
* `usize` arithmetic is `Nat` arithmetic (64-bit, never close to wrapping
  for any allocatable buffer);
* the two `u32` multiplications `tiles_x * tile_size` and
  `tiles_y * tile_size` wrap modulo `2 ^ 32` (release-mode Rust semantics),
  written with an explicit `% 2 ^ 32`;
* `Vec<u8>` is `List Nat`; the panicking operations — indexing
  (`buf[i] = v`) and `%`/`/` by zero — are modelled in `Except PanicKind`,
  so a Rust panic is an `Except.error` and a normal return is `Except.ok`.
-/

namespace RMERust

/-- The two panic sources reachable in `render_minimap_buffer`:
an out-of-bounds `Vec` index, and `%` or `/` with divisor zero. -/
inductive PanicKind
  | indexOOB
  | divByZero
  deriving DecidableEq

abbrev Buf := List Nat

abbrev RRes := Except PanicKind Buf

/-- Rust `buf[i] = v` on a `Vec<u8>`: stores in bounds, panics out of bounds. -/
def vset (buf : Buf) (i v : Nat) : RRes :=
  if i < buf.length then .ok (buf.set i v) else .error .indexOOB

/-- The three consecutive stores `buf[i] = r; buf[i+1] = g; buf[i+2] = b`
that both loop bodies of `render_minimap_buffer` perform. -/
def writeRGB (buf : Buf) (i r g b : Nat) : RRes :=
  (vset buf i r).bind fun buf1 =>
    (vset buf1 (i + 1) g).bind fun buf2 =>
      vset buf2 (i + 2) b

/-- `n` RGB stores at offsets `i, i+3, i+6, ...`.  This is the shape of both
loops of `render_minimap_buffer` that write pixels: the background fill
`for i in (0..total).step_by(3)` is `writeRun bg_r bg_g bg_b (total / 3) 0`
(`total` is always a multiple of 3, so the loop runs `total / 3` times),
and the inner stamping loop `for ox in 0..ts` writing at
`off = row_start + ox * 3` is `writeRun r g b ts row_start`. -/
def writeRun (r g b : Nat) : Nat → Nat → Buf → RRes
  | 0, _, buf => .ok buf
  | n + 1, i, buf => (writeRGB buf i r g b).bind fun buf2 => writeRun r g b n (i + 3) buf2

/-- Rust `let row_start = ((py_base + oy) * img_w + px_base) * 3;`. -/
def rowStart (img_w px_base py_base oy : Nat) : Nat :=
  ((py_base + oy) * img_w + px_base) * 3

/-- The `for oy in 0..ts` loop of `render_minimap_buffer`, called with
`oys = List.range ts`.  Each iteration checks
`if row_start + ts * 3 > total { break; }` before writing the row;
the `break` is modelled by returning the buffer without recursing. -/
def stampRows (r g b img_w px_base py_base ts total : Nat) : List Nat → Buf → RRes
  | [], buf => .ok buf
  | oy :: oys, buf =>
    if rowStart img_w px_base py_base oy + ts * 3 > total then .ok buf
    else
      (writeRun r g b ts (rowStart img_w px_base py_base oy) buf).bind fun buf2 =>
        stampRows r g b img_w px_base py_base ts total oys buf2

/-- The body of the `for (idx, &(r, g, b, a)) in tile_colors.iter().enumerate()`
loop: skip on `a == 0`, otherwise compute
`tx = idx % tiles_x`, `ty = idx / tiles_x` (usize `%` and `/`, which panic
when `tiles_x == 0`), then stamp the `ts × ts` block row by row. -/
def stampTile (tiles_x tile_size img_w total idx : Nat)
    (c : Nat × Nat × Nat × Nat) (buf : Buf) : RRes :=
  match c with
  | (r, g, b, a) =>
    if a = 0 then .ok buf
    else if tiles_x = 0 then .error .divByZero
    else
      stampRows r g b img_w (idx % tiles_x * tile_size) (idx / tiles_x * tile_size)
        tile_size total (List.range tile_size) buf

/-- The enumerate loop over `tile_colors`, fed with `tile_colors.enum`. -/
def stampTiles (tiles_x tile_size img_w total : Nat) :
    List (Nat × (Nat × Nat × Nat × Nat)) → Buf → RRes
  | [], buf => .ok buf
  | (idx, c) :: rest, buf =>
    (stampTile tiles_x tile_size img_w total idx c buf).bind
      (stampTiles tiles_x tile_size img_w total rest)

/-- Rust `render_minimap_buffer`: background fill then per-tile stamping.
`img_w`/`img_h` are the wrapping u32 products `tiles_x * tile_size` and
`tiles_y * tile_size`; `total` is usize arithmetic. -/
def render_minimap_buffer (tile_colors : List (Nat × Nat × Nat × Nat))
    (tiles_x tiles_y tile_size bg_r bg_g bg_b : Nat) : RRes :=
  let img_w := tiles_x * tile_size % 2 ^ 32
  let img_h := tiles_y * tile_size % 2 ^ 32
  let total := img_w * img_h * 3
  (writeRun bg_r bg_g bg_b (total / 3) 0 (List.replicate total 0)).bind
    (stampTiles tiles_x tile_size img_w total tile_colors.enum)

/-- One scanline's pixel bytes in `assemble_png_idat`: the
`if end <= image_data.len()` branch copies `image_data[start..end]`,
the else branch copies the `available` remaining bytes (if any) and
zero-pads with `resize` to `row_bytes` bytes. -/
def buildRow (image_data : List Nat) (row_bytes y : Nat) : List Nat :=
  let start := y * row_bytes
  if start + row_bytes ≤ image_data.length then
    (image_data.drop start).take row_bytes
  else
    let available := if start < image_data.length then image_data.length - start else 0
    (if 0 < available then (image_data.drop start).take available else []) ++
      List.replicate (row_bytes - available) 0

/-- The `for y in 0..h` loop of `assemble_png_idat`: push the filter byte 0,
then the row's bytes, accumulating into `raw`.  Called with
`ys = List.range height`. -/
def assembleRawLoop (image_data : List Nat) (row_bytes : Nat) :
    List Nat → List Nat → List Nat
  | [], raw => raw
  | y :: ys, raw => assembleRawLoop image_data row_bytes ys (raw ++ 0 :: buildRow image_data row_bytes y)

/-- Modelled from the spec: `miniz_oxide::deflate::compress_to_vec_zlib` is an
external crate, not part of this repository.  The spec describes it as a
deflate-family lossless compressor whose output decompresses back to its
input byte-for-byte; it is modelled as an abstract lossless codec — here the
identity codec, for which `decompress_to_vec_zlib ∘ compress_to_vec_zlib = id`
holds definitionally.  All claims about `assemble_png_idat` concern the raw
scanline buffer handed to the compressor, which is embedded faithfully. -/
def compress_to_vec_zlib (raw : List Nat) : List Nat := raw

/-- Modelled from the spec: `miniz_oxide::inflate::decompress_to_vec_zlib`,
the inverse of `compress_to_vec_zlib` (see there). -/
def decompress_to_vec_zlib (data : List Nat) : List Nat := data

/-- Rust `assemble_png_idat`: build the filter-framed raw scanline buffer,
then zlib-compress it. -/
def assemble_png_idat (image_data : List Nat) (width height : Nat) : List Nat :=
  let row_bytes := width * 3
  compress_to_vec_zlib (assembleRawLoop image_data row_bytes (List.range height) [])

/-- Spec-side description of one framed scanline (from the spec's words, for
the round-trip claim): the filter marker 0 followed by bytes
`pixels[y*w*3 .. y*w*3 + w*3]`, with zero substituted past the end. -/
def specRow (pixels : List Nat) (w y : Nat) : List Nat :=
  (List.range (w * 3)).map fun k => pixels.getD (y * (w * 3) + k) 0

/-- Spec-side description of the whole raw scanline buffer: `h` rows, each
`1 + w*3` bytes, as the spec states the decompressed output must look. -/
def specScanlines (pixels : List Nat) (w h : Nat) : List Nat :=
  ((List.range h).map fun y => 0 :: specRow pixels w y).flatten

/-- The byte that the (r,g,b)-writing loops leave at offset `j` of a freshly
written region: channel `j % 3`. -/
def channelAt (r g b j : Nat) : Nat :=
  if j % 3 = 0 then r else if j % 3 = 1 then g else b

/-- Byte `j` lies in one of the candidate rows written when stamping entry
`idx`: some `oy < ts` whose row segment
`[rowStart .. rowStart + ts * 3)` contains `j`, the block base being
`(idx % tiles_x * ts, idx / tiles_x * ts)`. -/
def rowsHit (tiles_x ts img_w idx j : Nat) : Prop :=
  ∃ oy, oy < ts ∧ rowStart img_w (idx % tiles_x * ts) (idx / tiles_x * ts) oy ≤ j ∧
    j < rowStart img_w (idx % tiles_x * ts) (idx / tiles_x * ts) oy + ts * 3

instance rowsHitDecidable (tiles_x ts img_w idx j : Nat) :
    Decidable (rowsHit tiles_x ts img_w idx j) :=
  decidable_of_iff
    (∃ oy ∈ List.range ts,
      rowStart img_w (idx % tiles_x * ts) (idx / tiles_x * ts) oy ≤ j ∧
        j < rowStart img_w (idx % tiles_x * ts) (idx / tiles_x * ts) oy + ts * 3)
    (by simp [rowsHit, List.mem_range])

/-! Basic facts about the `Except` monad and buffer writes. -/

theorem exbind_ok (x : Buf) (f : Buf → RRes) : (Except.ok x : RRes).bind f = f x := rfl

theorem exbind_error (e : PanicKind) (f : Buf → RRes) :
    (Except.error e : RRes).bind f = Except.error e := rfl

theorem getD_set_self (l : Buf) (i v d : Nat) (h : i < l.length) :
    (l.set i v).getD i d = v := by
  rw [List.getD_eq_getD_get?, List.get?_eq_getElem?, List.getElem?_set_self h]
  rfl

theorem getD_set_ne (l : Buf) (i j v d : Nat) (h : j ≠ i) :
    (l.set i v).getD j d = l.getD j d := by
  rw [List.getD_eq_getD_get?, List.getD_eq_getD_get?, List.get?_eq_getElem?,
    List.get?_eq_getElem?, List.getElem?_set_ne (Ne.symm h)]

theorem getD_replicate_zero (n j : Nat) : (List.replicate n (0 : Nat)).getD j 0 = 0 := by
  rw [List.getD_eq_getD_get?, List.get?_eq_getElem?, List.getElem?_replicate]
  by_cases h : j < n
  · rw [if_pos h]
    rfl
  · rw [if_neg h]
    rfl

theorem channelAt_zero (r g b : Nat) : channelAt r g b 0 = r := by simp [channelAt]

theorem channelAt_one (r g b : Nat) : channelAt r g b 1 = g := by simp [channelAt]

theorem channelAt_two (r g b : Nat) : channelAt r g b 2 = b := by simp [channelAt]

theorem channelAt_add_three (r g b k : Nat) : channelAt r g b (k + 3) = channelAt r g b k := by
  have h : (k + 3) % 3 = k % 3 := by omega
  simp only [channelAt, h]

theorem writeRGB_ok_iff (buf buf' : Buf) (i r g b : Nat) :
    writeRGB buf i r g b = .ok buf' ↔
      i + 2 < buf.length ∧ buf' = ((buf.set i r).set (i + 1) g).set (i + 2) b := by
  unfold writeRGB vset
  by_cases h0 : i < buf.length
  · rw [if_pos h0, exbind_ok]
    by_cases h1 : i + 1 < (buf.set i r).length
    · rw [if_pos h1, exbind_ok]
      by_cases h2 : i + 2 < ((buf.set i r).set (i + 1) g).length
      · rw [if_pos h2]
        simp only [List.length_set] at h2
        constructor
        · intro h
          exact ⟨h2, ((Except.ok.injEq _ _).mp h).symm⟩
        · intro he
          rw [he.2]
      · rw [if_neg h2]
        simp only [List.length_set] at h2
        constructor
        · intro h
          exact absurd h (by simp)
        · intro he
          omega
    · simp only [List.length_set] at h1
      rw [if_neg (by simpa using h1), exbind_error]
      constructor
      · intro h
        exact absurd h (by simp)
      · intro he
        omega
  · rw [if_neg h0, exbind_error]
    constructor
    · intro h
      exact absurd h (by simp)
    · intro he
      omega

theorem writeRGB_length (buf buf' : Buf) (i r g b : Nat)
    (h : writeRGB buf i r g b = .ok buf') : buf'.length = buf.length := by
  obtain ⟨-, rfl⟩ := (writeRGB_ok_iff buf buf' i r g b).mp h
  simp

theorem writeRGB_getD (buf buf' : Buf) (i r g b j : Nat)
    (h : writeRGB buf i r g b = .ok buf') :
    buf'.getD j 0 =
      if j = i then r else if j = i + 1 then g else if j = i + 2 then b
      else buf.getD j 0 := by
  obtain ⟨hlen, rfl⟩ := (writeRGB_ok_iff buf buf' i r g b).mp h
  by_cases hj0 : j = i
  · subst hj0
    rw [if_pos rfl, getD_set_ne _ _ _ _ _ (by omega), getD_set_ne _ _ _ _ _ (by omega),
      getD_set_self _ _ _ _ (by omega)]
  · rw [if_neg hj0]
    by_cases hj1 : j = i + 1
    · subst hj1
      rw [if_pos rfl, getD_set_ne _ _ _ _ _ (by omega),
        getD_set_self _ _ _ _ (by simpa using by omega)]
    · rw [if_neg hj1]
      by_cases hj2 : j = i + 2
      · subst hj2
        rw [if_pos rfl, getD_set_self _ _ _ _ (by simpa using by omega)]
      · rw [if_neg hj2, getD_set_ne _ _ _ _ _ hj2, getD_set_ne _ _ _ _ _ hj1,
          getD_set_ne _ _ _ _ _ hj0]

/-! The RGB write loop `writeRun`: length preservation, success on in-bounds
runs, and the bytes it leaves behind. -/

theorem writeRun_length (r g b n : Nat) : ∀ (i : Nat) (buf buf' : Buf),
    writeRun r g b n i buf = .ok buf' → buf'.length = buf.length := by
  induction n with
  | zero =>
    intro i buf buf' h
    simp only [writeRun] at h
    cases h
    rfl
  | succ n ih =>
    intro i buf buf' h
    simp only [writeRun] at h
    cases hw : writeRGB buf i r g b with
    | error e =>
      rw [hw, exbind_error] at h
      exact absurd h (by simp)
    | ok buf1 =>
      rw [hw, exbind_ok] at h
      rw [ih _ _ _ h, writeRGB_length _ _ _ _ _ _ hw]

theorem writeRun_ok (r g b n : Nat) : ∀ (i : Nat) (buf : Buf), i + 3 * n ≤ buf.length →
    ∃ buf', writeRun r g b n i buf = .ok buf' ∧ buf'.length = buf.length ∧
      ∀ j, buf'.getD j 0 =
        if i ≤ j ∧ j < i + 3 * n then channelAt r g b (j - i) else buf.getD j 0 := by
  induction n with
  | zero =>
    intro i buf _
    refine ⟨buf, rfl, rfl, fun j => ?_⟩
    rw [if_neg (by omega)]
  | succ n ih =>
    intro i buf hlen
    have h2 : i + 2 < buf.length := by omega
    have hw : writeRGB buf i r g b = .ok (((buf.set i r).set (i + 1) g).set (i + 2) b) :=
      (writeRGB_ok_iff _ _ _ _ _ _).mpr ⟨h2, rfl⟩
    have hlen1 : (((buf.set i r).set (i + 1) g).set (i + 2) b).length = buf.length := by simp
    obtain ⟨buf', hrun, hlen', hpt⟩ := ih (i + 3) (((buf.set i r).set (i + 1) g).set (i + 2) b)
      (by omega)
    refine ⟨buf', ?_, by rw [hlen', hlen1], fun j => ?_⟩
    · simp only [writeRun]
      rw [hw, exbind_ok, hrun]
    · rw [hpt j]
      have hmid := writeRGB_getD _ _ i r g b j hw
      by_cases hc : i + 3 ≤ j ∧ j < i + 3 + 3 * n
      · rw [if_pos hc, if_pos (by omega)]
        have hji : j - i = (j - (i + 3)) + 3 := by omega
        rw [hji, channelAt_add_three]
      · rw [if_neg hc, hmid]
        by_cases hj0 : j = i
        · subst hj0
          rw [if_pos rfl, if_pos (by omega)]
          simp [channelAt]
        · rw [if_neg hj0]
          by_cases hj1 : j = i + 1
          · subst hj1
            rw [if_pos rfl, if_pos (by omega)]
            have : i + 1 - i = 1 := by omega
            rw [this, channelAt_one]
          · rw [if_neg hj1]
            by_cases hj2 : j = i + 2
            · subst hj2
              rw [if_pos rfl, if_pos (by omega)]
              have : i + 2 - i = 2 := by omega
              rw [this, channelAt_two]
            · rw [if_neg hj2, if_neg (by omega)]

/-! The per-tile row loop `stampRows`: it cannot fail on a buffer whose length
is `total` (the guard `row_start + ts * 3 > total` protects every write), it
preserves the length, it leaves untouched every byte outside its candidate
rows, and when every row fits it paints exactly the block's rows. -/

theorem stampRows_length (r g b img_w px_base py_base ts total : Nat) :
    ∀ (oys : List Nat) (buf buf' : Buf),
      stampRows r g b img_w px_base py_base ts total oys buf = .ok buf' →
      buf'.length = buf.length := by
  intro oys
  induction oys with
  | nil =>
    intro buf buf' h
    simp only [stampRows] at h
    cases h
    rfl
  | cons oy oys ih =>
    intro buf buf' h
    simp only [stampRows] at h
    by_cases hg : rowStart img_w px_base py_base oy + ts * 3 > total
    · rw [if_pos hg] at h
      cases h
      rfl
    · rw [if_neg hg] at h
      cases hw : writeRun r g b ts (rowStart img_w px_base py_base oy) buf with
      | error e =>
        rw [hw, exbind_error] at h
        exact absurd h (by simp)
      | ok buf1 =>
        rw [hw, exbind_ok] at h
        rw [ih _ _ h, writeRun_length _ _ _ _ _ _ _ hw]

theorem stampTile_length (tiles_x ts img_w total idx : Nat) (c : Nat × Nat × Nat × Nat)
    (buf buf' : Buf) (h : stampTile tiles_x ts img_w total idx c buf = .ok buf') :
    buf'.length = buf.length := by
  obtain ⟨r, g, b, a⟩ := c
  simp only [stampTile] at h
  by_cases ha : a = 0
  · rw [if_pos ha] at h
    cases h
    rfl
  · rw [if_neg ha] at h
    by_cases hX : tiles_x = 0
    · rw [if_pos hX] at h
      exact absurd h (by simp)
    · rw [if_neg hX] at h
      exact stampRows_length _ _ _ _ _ _ _ _ _ _ _ h

theorem stampTiles_length (tiles_x ts img_w total : Nat) :
    ∀ (es : List (Nat × (Nat × Nat × Nat × Nat))) (buf buf' : Buf),
      stampTiles tiles_x ts img_w total es buf = .ok buf' → buf'.length = buf.length := by
  intro es
  induction es with
  | nil =>
    intro buf buf' h
    simp only [stampTiles] at h
    cases h
    rfl
  | cons p rest ih =>
    intro buf buf' h
    obtain ⟨idx, c⟩ := p
    simp only [stampTiles] at h
    cases hw : stampTile tiles_x ts img_w total idx c buf with
    | error e =>
      rw [hw, exbind_error] at h
      exact absurd h (by simp)
    | ok buf1 =>
      rw [hw, exbind_ok] at h
      rw [ih _ _ h, stampTile_length _ _ _ _ _ _ _ _ hw]

theorem fill_ok (br bg bb W H : Nat) :
    ∃ buf0, writeRun br bg bb (W * H * 3 / 3) 0 (List.replicate (W * H * 3) 0) = .ok buf0 ∧
      buf0.length = W * H * 3 ∧
      ∀ j, buf0.getD j 0 = if j < W * H * 3 then channelAt br bg bb j else 0 := by
  obtain ⟨buf0, h, hlen, hpt⟩ := writeRun_ok br bg bb (W * H * 3 / 3) 0
    (List.replicate (W * H * 3) 0) (by rw [List.length_replicate]; omega)
  refine ⟨buf0, h, by rw [hlen, List.length_replicate], fun j => ?_⟩
  rw [hpt j]
  by_cases hj : j < W * H * 3
  · rw [if_pos (by omega), if_pos hj, Nat.sub_zero]
  · rw [if_neg (by omega), if_neg hj, getD_replicate_zero]

theorem render_unfold (colors : List (Nat × Nat × Nat × Nat)) (X Y ts br bg bb : Nat) :
    render_minimap_buffer colors X Y ts br bg bb =
      (writeRun br bg bb (X * ts % 2 ^ 32 * (Y * ts % 2 ^ 32) * 3 / 3) 0
        (List.replicate (X * ts % 2 ^ 32 * (Y * ts % 2 ^ 32) * 3) 0)).bind
        (stampTiles X ts (X * ts % 2 ^ 32) (X * ts % 2 ^ 32 * (Y * ts % 2 ^ 32) * 3)
          colors.enum) := rfl

theorem padded_eq_map_getD : ∀ (n s : Nat) (l : List Nat),
    (l.drop s).take n ++ List.replicate (n - (l.length - s)) 0 =
      (List.range n).map fun k => l.getD (s + k) 0 := by
  intro n
  induction n with
  | zero =>
    intro s l
    simp
  | succ n ih =>
    intro s l
    rw [List.range_succ_eq_map, List.map_cons, List.map_map]
    by_cases hs : s < l.length
    · rw [List.drop_eq_getElem_cons hs, List.take_succ_cons]
      have hrep : n + 1 - (l.length - s) = n - (l.length - (s + 1)) := by omega
      rw [List.cons_append, hrep, ih (s + 1) l]
      congr 1
      · rw [Nat.add_zero]
        exact (List.getD_eq_getElem l 0 hs).symm
      · apply List.map_congr_left
        intro k _
        simp only [Function.comp_apply]
        have e : s + (k + 1) = s + 1 + k := by omega
        rw [e]
    · have hs' : l.length ≤ s := by omega
      rw [List.drop_eq_nil_of_le hs', List.take_nil, List.nil_append]
      have hrep : n + 1 - (l.length - s) = n + 1 := by omega
      rw [hrep, List.replicate_succ]
      have htail : (l.drop (s + 1)).take n ++ List.replicate (n - (l.length - (s + 1))) 0 =
          List.replicate n 0 := by
        rw [List.drop_eq_nil_of_le (by omega), List.take_nil, List.nil_append]
        have : n - (l.length - (s + 1)) = n := by omega
        rw [this]
      have hih := ih (s + 1) l
      rw [htail] at hih
      rw [hih]
      congr 1
      · rw [Nat.add_zero, List.getD_eq_default]
        omega
      · apply List.map_congr_left
        intro k _
        simp only [Function.comp_apply]
        have e : s + (k + 1) = s + 1 + k := by omega
        rw [e]

theorem buildRow_eq_padded (l : List Nat) (rb y : Nat) :
    buildRow l rb y =
      (l.drop (y * rb)).take rb ++ List.replicate (rb - (l.length - y * rb)) 0 := by
  unfold buildRow
  by_cases h1 : y * rb + rb ≤ l.length
  · rw [if_pos h1]
    have hc : rb - (l.length - y * rb) = 0 := by omega
    rw [hc, List.replicate_zero, List.append_nil]
  · rw [if_neg h1]
    by_cases h2 : y * rb < l.length
    · rw [if_pos h2]
      show (if 0 < l.length - y * rb then (l.drop (y * rb)).take (l.length - y * rb) else []) ++
          List.replicate (rb - (l.length - y * rb)) 0 = _
      rw [if_pos (by omega)]
      have hd : (l.drop (y * rb)).length = l.length - y * rb := List.length_drop _ _
      rw [List.take_of_length_le (Nat.le_of_eq hd), List.take_of_length_le (by rw [hd]; omega)]
    · rw [if_neg h2]
      show (if 0 < 0 then (l.drop (y * rb)).take 0 else []) ++ List.replicate (rb - 0) 0 = _
      rw [if_neg (by omega)]
      rw [List.drop_eq_nil_of_le (by omega), List.take_nil]
      have hc : l.length - y * rb = 0 := by omega
      rw [hc]

theorem specRow_eq_buildRow (l : List Nat) (w y : Nat) :
    buildRow l (w * 3) y = specRow l w y := by
  rw [buildRow_eq_padded, specRow, padded_eq_map_getD]

theorem assembleRawLoop_eq (l : List Nat) (rb : Nat) : ∀ (ys raw : List Nat),
    assembleRawLoop l rb ys raw = raw ++ (ys.map fun y => 0 :: buildRow l rb y).flatten := by
  intro ys
  induction ys with
  | nil =>
    intro raw
    simp [assembleRawLoop]
  | cons y ys ih =>
    intro raw
    simp only [assembleRawLoop, List.map_cons, List.flatten_cons]
    rw [ih (raw ++ 0 :: buildRow l rb y), List.append_assoc]

theorem raw_eq_specScanlines (pixels : List Nat) (w h : Nat) :
    assembleRawLoop pixels (w * 3) (List.range h) [] = specScanlines pixels w h := by
  rw [assembleRawLoop_eq, List.nil_append, specScanlines]
  congr 1
  apply List.map_congr_left
  intro y _
  rw [specRow_eq_buildRow]

theorem getD_take (l : List Nat) (n i : Nat) (h : i < n) :
    (l.take n).getD i 0 = l.getD i 0 := by
  rw [List.getD_eq_getD_get?, List.getD_eq_getD_get?, List.get?_eq_getElem?,
    List.get?_eq_getElem?, List.getElem?_take_of_lt h]

theorem flatten_const_single : ∀ h : Nat,
    ((List.range h).map fun _ => [(0 : Nat)]).flatten = List.replicate h (0 : Nat) := by
  intro h
  induction h with
  | zero => rfl
  | succ h ih =>
    rw [List.range_succ, List.map_append, List.flatten_append, ih, List.replicate_succ']
    simp

/-! The claims. -/

/-- C1: for every pixel buffer, width and height, decompressing the output of
`assemble_png_idat` yields exactly `height` rows of `1 + width*3` bytes each;
each row starts with the filter-marker byte 0 followed by the bytes
`pixels[y*w*3 .. y*w*3 + w*3]`, with zero bytes substituted for positions past
the end of `pixels` (round-trip fidelity against the raw scanline buffer,
`specScanlines` being the spec-side description of that buffer). -/
theorem claim_C1_roundtrip (pixels : List Nat) (w h : Nat) :
    decompress_to_vec_zlib (assemble_png_idat pixels w h) = specScanlines pixels w h := by
  show assembleRawLoop pixels (w * 3) (List.range h) [] = specScanlines pixels w h
  exact raw_eq_specScanlines pixels w h

/-- C8: `assemble_png_idat` on the zero-length pixel buffer with `width = 0`
or `height = 0` succeeds (it is a total function of the embedding — the only
partial operations of the source, panicking `Vec` indexing and `%`/`/` by
zero, do not occur in it) and its output decompresses to the minimal raw
buffer: one filter-marker byte 0 per row, i.e. `height` zero bytes, which is
empty when `height = 0`. -/
theorem claim_C8_degenerate (w h : Nat) (hdeg : w = 0 ∨ h = 0) :
    decompress_to_vec_zlib (assemble_png_idat [] w h) = List.replicate h 0 := by
  show assembleRawLoop [] (w * 3) (List.range h) [] = List.replicate h 0
  rw [raw_eq_specScanlines]
  rcases hdeg with rfl | rfl
  · unfold specScanlines
    have hrow : ∀ y ∈ List.range h, (0 :: specRow [] 0 y) = [0] := by
      intro y _
      unfold specRow
      simp
    rw [List.map_congr_left hrow, flatten_const_single]
  · rfl

/-- C9: the output of `assemble_png_idat` depends only on the first
`width * height * 3` bytes of `image_data`: truncating the input to that
length never changes the output. -/
theorem claim_C9_prefix_only (pixels : List Nat) (w h : Nat) :
    assemble_png_idat pixels w h = assemble_png_idat (pixels.take (w * h * 3)) w h := by
  show assembleRawLoop pixels (w * 3) (List.range h) [] =
    assembleRawLoop (pixels.take (w * h * 3)) (w * 3) (List.range h) []
  rw [raw_eq_specScanlines, raw_eq_specScanlines]
  unfold specScanlines
  congr 1
  apply List.map_congr_left
  intro y hy
  congr 1
  unfold specRow
  apply List.map_congr_left
  intro k hk
  have hylt : y < h := List.mem_range.mp hy
  have hklt : k < w * 3 := List.mem_range.mp hk
  have m1 : (y + 1) * (w * 3) ≤ h * (w * 3) := Nat.mul_le_mul_right _ (by omega)
  have e1 : (y + 1) * (w * 3) = y * (w * 3) + w * 3 := by ring
  have e2 : h * (w * 3) = w * h * 3 := by ring
  exact (getD_take pixels (w * h * 3) (y * (w * 3) + k) (by omega)).symm

/-- C4 (amended): whenever `render_minimap_buffer` returns a buffer, its
length is `(tiles_x * tile_size mod 2^32) * (tiles_y * tile_size mod 2^32) * 3`
— equal to the claimed `tiles_x*tile_size*tiles_y*tile_size*3` exactly when
neither u32 product overflows. -/
theorem claim_C4_length (colors : List (Nat × Nat × Nat × Nat)) (X Y ts br bg bb : Nat)
    (buf : Buf) (h : render_minimap_buffer colors X Y ts br bg bb = .ok buf) :
    buf.length = X * ts % 2 ^ 32 * (Y * ts % 2 ^ 32) * 3 := by
  rw [render_unfold] at h
  obtain ⟨buf0, hfill, hlen0, -⟩ := fill_ok br bg bb (X * ts % 2 ^ 32) (Y * ts % 2 ^ 32)
  rw [hfill, exbind_ok] at h
  rw [stampTiles_length _ _ _ _ _ _ _ h, hlen0]

/-- C4 counterexample: the claim as stated says the length is
`tiles_x*tile_size*tiles_y*tile_size*3` for every input, but the u32 product
`tiles_x * tile_size = 2^31 * 2 = 2^32` wraps to 0 in the source, so the
returned buffer is empty while the claimed length is positive. -/
theorem cex_C4_overflow :
    render_minimap_buffer [] 2147483648 1 2 0 0 0 = .ok [] ∧
      2147483648 * 2 * 1 * 2 * 3 ≠ ([] : Buf).length := by
  constructor
  · rfl
  · decide

theorem claim_C4_length_witness :
    render_minimap_buffer
        [(255, 0, 0, 255), (0, 255, 0, 255), (0, 0, 255, 255), (255, 255, 0, 255)] 2 2 1 0 0 0 =
      .ok [255, 0, 0, 0, 255, 0, 0, 0, 255, 255, 255, 0] ∧
    ([255, 0, 0, 0, 255, 0, 0, 0, 255, 255, 255, 0] : Buf).length =
      2 * 1 % 2 ^ 32 * (2 * 1 % 2 ^ 32) * 3 :=
  ⟨rfl, claim_C4_length
    [(255, 0, 0, 255), (0, 255, 0, 255), (0, 0, 255, 255), (255, 255, 0, 255)] 2 2 1 0 0 0
    [255, 0, 0, 0, 255, 0, 0, 0, 255, 255, 255, 0] rfl⟩

theorem claim_C8_degenerate_witness :
    ((0 : Nat) = 0 ∨ (3 : Nat) = 0) ∧
    decompress_to_vec_zlib (assemble_png_idat [] 0 3) = List.replicate 3 0 :=
  ⟨Or.inl rfl, claim_C8_degenerate 0 3 (Or.inl rfl)⟩

end RMERust
